import Mathlib

/-!
Shallow embedding of the tickdb storage engine (src/storage/node.go and
src/store/db.go) and proofs about its specification claims.

Modelling conventions:
* Go `float64` sample values are modelled as rationals (`ℚ`) for the
  arithmetic/aggregation claims, and as their raw 64-bit patterns (`Nat`)
  for the binary-codec claims, where only the byte image matters.
* Go `map[string]T` values are modelled as association lists updated in
  place (first occurrence wins on lookup, append on fresh key); per-key
  results do not depend on iteration order because distinct keys are
  accumulated independently.
* A Go runtime panic (out-of-range slice index, nil dereference, failed
  `_assert`) is modelled as `none` / `Option.none`.
* Go machine integers are modelled as `Int`/`Nat`; wraparound is written
  explicitly (`% 2 ^ 64`) at the points where the code truncates.
-/

namespace Tickdb

/-- `Value` from src/storage/node.go: the per-metric rollup record
(sum, max, min, first, last, count), with `float64` fields as `ℚ`. -/
structure ValueQ where
  sum : ℚ
  max : ℚ
  min : ℚ
  first : ℚ
  last : ℚ
  count : Nat
  deriving Repr, DecidableEq

/-- `Point` from the repository (timestamp plus metric map), with the
metric map as an association list. -/
structure PointQ where
  ts : Int
  value : List (String × ℚ)
  deriving Repr, DecidableEq

/-- A metric-name-keyed map of rollup values (Go `map[string]Value`). -/
abbrev ValMap := List (String × ValueQ)

/-- Go map read `value[k]`. -/
def lookupV (m : ValMap) (k : String) : Option ValueQ :=
  (m.find? (fun e => e.1 = k)).map (·.2)

/-- Go map write `value[k] = v`: replace in place when the key is present,
append otherwise. -/
def setV (m : ValMap) (k : String) (v : ValueQ) : ValMap :=
  match m with
  | [] => [(k, v)]
  | e :: rest => if e.1 = k then (k, v) :: rest else e :: setV rest k v

/-- One metric entry of one point folded into the leaf accumulator,
exactly as the leaf branch of `node.reduce` (src/storage/node.go:317-343)
does it: fresh key initializes every field and count 1; a seen key adds to
sum, then updates max when larger ELSE updates min when smaller (the
code's `else if`), sets `last` only on the final point, and bumps count. -/
def leafStepGo (isLast : Bool) (acc : ValMap) (kv : String × ℚ) : ValMap :=
  let k := kv.1; let v := kv.2
  match lookupV acc k with
  | none =>
      setV acc k { sum := v, max := v, min := v, first := v, last := v, count := 1 }
  | some vk =>
      let vk := { vk with sum := vk.sum + v }
      let vk :=
        if vk.max < v then { vk with max := v }
        else if v < vk.min then { vk with min := v }
        else vk
      let vk := if isLast then { vk with last := v } else vk
      let vk := { vk with count := vk.count + 1 }
      setV acc k vk

/-- The same step with the max and min comparisons made independent
(this is what the claim asserts: "updates max when larger, updates min
when smaller"). -/
def leafStepSpec (isLast : Bool) (acc : ValMap) (kv : String × ℚ) : ValMap :=
  let k := kv.1; let v := kv.2
  match lookupV acc k with
  | none =>
      setV acc k { sum := v, max := v, min := v, first := v, last := v, count := 1 }
  | some vk =>
      let vk := { vk with sum := vk.sum + v }
      let vk := if vk.max < v then { vk with max := v } else vk
      let vk := if v < vk.min then { vk with min := v } else vk
      let vk := if isLast then { vk with last := v } else vk
      let vk := { vk with count := vk.count + 1 }
      setV acc k vk

/-- Fold one point's whole metric map into the accumulator. -/
def leafPointFold (step : Bool → ValMap → (String × ℚ) → ValMap)
    (isLast : Bool) (acc : ValMap) (p : PointQ) : ValMap :=
  p.value.foldl (step isLast) acc

/-- Fold the remaining points; `rest` is nonempty, its last element is the
point with `index == len(n.points)-1`. -/
def leafFoldAux (step : Bool → ValMap → (String × ℚ) → ValMap) :
    ValMap → List PointQ → ValMap
  | acc, [] => acc
  | acc, [p] => leafPointFold step true acc p
  | acc, p :: q :: rest =>
      leafFoldAux step (leafPointFold step false acc p) (q :: rest)

/-- The leaf branch of `node.reduce` (src/storage/node.go:316-343). -/
def reduceLeafGo (points : List PointQ) : ValMap :=
  leafFoldAux leafStepGo [] points

/-- The claim's reading of the leaf reduce, with independent max/min
updates. -/
def reduceLeafSpec (points : List PointQ) : ValMap :=
  leafFoldAux leafStepSpec [] points

/-- The accumulator invariant: every stored rollup has `min ≤ max`. -/
def AccWF (acc : ValMap) : Prop :=
  ∀ e ∈ acc, e.2.min ≤ e.2.max

theorem lookupV_mem {acc : ValMap} {k : String} {v : ValueQ}
    (h : lookupV acc k = some v) : (k, v) ∈ acc := by
  unfold lookupV at h
  rcases Option.map_eq_some'.mp h with ⟨e, hf, hv⟩
  have hmem := List.mem_of_find?_eq_some hf
  have hk := List.find?_some hf
  simp only [decide_eq_true_eq] at hk
  cases e
  simp only at hk hv
  subst hk
  subst hv
  exact hmem

theorem setV_wf {k : String} {v : ValueQ} (hv : v.min ≤ v.max) :
    ∀ acc : ValMap, AccWF acc → AccWF (setV acc k v) := by
  intro acc
  induction acc with
  | nil =>
      intro _ e he
      simp only [setV, List.mem_singleton] at he
      subst he
      exact hv
  | cons a rest ih =>
      intro hacc e he
      have hrest : AccWF rest := fun e' he' => hacc e' (List.mem_cons_of_mem a he')
      simp only [setV] at he
      by_cases hk : a.1 = k
      · simp only [hk, if_true] at he
        rcases List.mem_cons.mp he with h | h
        · subst h; exact hv
        · exact hrest e h
      · simp only [hk, if_false] at he
        rcases List.mem_cons.mp he with h | h
        · subst h; exact hacc e (List.mem_cons_self e rest)
        · exact ih hrest e h

theorem leafStepGo_eq_spec {acc : ValMap} (hacc : AccWF acc)
    (isLast : Bool) (kv : String × ℚ) :
    leafStepGo isLast acc kv = leafStepSpec isLast acc kv := by
  unfold leafStepGo leafStepSpec
  simp only
  rcases h : lookupV acc kv.1 with _ | vk
  · rfl
  · have hwf : vk.min ≤ vk.max := hacc _ (lookupV_mem h)
    by_cases hmax : vk.max < kv.2
    · have hmin : ¬ kv.2 < vk.min := by
        intro hlt
        exact absurd (lt_trans hlt (lt_of_le_of_lt hwf hmax)) (lt_irrefl _)
      simp [hmax, hmin]
    · simp [hmax]

theorem leafStepGo_wf {acc : ValMap} (hacc : AccWF acc)
    (isLast : Bool) (kv : String × ℚ) : AccWF (leafStepGo isLast acc kv) := by
  unfold leafStepGo
  simp only
  rcases h : lookupV acc kv.1 with _ | vk
  · exact setV_wf (le_refl _) acc hacc
  · have hwf : vk.min ≤ vk.max := hacc _ (lookupV_mem h)
    by_cases hmax : vk.max < kv.2
    · refine setV_wf ?_ acc hacc
      simp only [hmax, if_true]
      cases isLast <;> simp <;> linarith
    · by_cases hmin : kv.2 < vk.min
      · refine setV_wf ?_ acc hacc
        simp only [hmax, if_false, hmin, if_true]
        cases isLast <;> simp <;> linarith
      · refine setV_wf ?_ acc hacc
        simp only [hmax, if_false, hmin]
        cases isLast <;> simp <;> linarith

theorem foldl_leafStep_eq (isLast : Bool) :
    ∀ (l : List (String × ℚ)) (acc : ValMap), AccWF acc →
      l.foldl (leafStepGo isLast) acc = l.foldl (leafStepSpec isLast) acc ∧
      AccWF (l.foldl (leafStepGo isLast) acc) := by
  intro l
  induction l with
  | nil => intro acc hacc; exact ⟨rfl, hacc⟩
  | cons kv rest ih =>
      intro acc hacc
      have hstep := leafStepGo_eq_spec hacc isLast kv
      have hwf := leafStepGo_wf hacc isLast kv
      rcases ih (leafStepGo isLast acc kv) hwf with ⟨heq, hwf'⟩
      refine ⟨?_, ?_⟩
      · simp only [List.foldl_cons]
        rw [← hstep, heq]
      · simpa using hwf'

theorem leafFoldAux_eq :
    ∀ (points : List PointQ) (acc : ValMap), AccWF acc →
      leafFoldAux leafStepGo acc points = leafFoldAux leafStepSpec acc points := by
  intro points
  induction points with
  | nil => intro acc _; rfl
  | cons p rest ih =>
      intro acc hacc
      cases rest with
      | nil =>
          simp only [leafFoldAux, leafPointFold]
          exact (foldl_leafStep_eq true p.value acc hacc).1
      | cons q rest' =>
          simp only [leafFoldAux, leafPointFold]
          rcases foldl_leafStep_eq false p.value acc hacc with ⟨heq, hwf⟩
          rw [← heq]
          exact ih _ hwf

/-- C5: for every leaf, the leaf branch of `node.reduce` computes, per
metric, exactly the fold the claim describes (first point initializes all
fields with count 1; each later point adds to sum, updates max when
strictly larger, updates min when strictly smaller, bumps count, and the
final point sets `last`; `first` is never revisited) — the code's
`else if` between the max- and min-update never suppresses a real min
update because every accumulated rollup keeps `min ≤ max`.  In particular
points valued 10, 20, 30 on metric "x" reduce to sum 60, max 30, min 10,
first 10, last 30, count 3. -/
theorem leaf_reduce_correct :
    (∀ points : List PointQ, reduceLeafGo points = reduceLeafSpec points) ∧
    reduceLeafGo
      [⟨100, [("x", 10)]⟩, ⟨200, [("x", 20)]⟩, ⟨300, [("x", 30)]⟩] =
      [("x", { sum := 60, max := 30, min := 10, first := 10, last := 30, count := 3 })] := by
  constructor
  · intro points
    exact leafFoldAux_eq points [] (by intro e he; cases he)
  · norm_num [reduceLeafGo, leafFoldAux, leafPointFold, leafStepGo, lookupV, setV]

/-- Go's `sort.Search(n, f)` binary search, as in the Go standard
library: `i, j := 0, n; for i < j { h := (i+j)/2; if !f(h) { i = h+1 }
else { j = h } }; return i`.  The fuel argument bounds the loop's
iteration count; the interval `j - i` shrinks by at least one per
iteration, so fuel `n` (as passed by `sortSearch`) never runs out. -/
def sortSearchAux (f : Nat → Bool) : Nat → Nat → Nat → Nat
  | 0, i, _ => i
  | fuel + 1, i, j =>
      if i < j then
        let m := (i + j) / 2
        if f m then sortSearchAux f fuel i m else sortSearchAux f fuel (m + 1) j
      else i

def sortSearch (n : Nat) (f : Nat → Bool) : Nat :=
  sortSearchAux f n 0 n

theorem sortSearchAux_le (f : Nat → Bool) :
    ∀ (fuel i j : Nat), i ≤ j → i ≤ sortSearchAux f fuel i j ∧ sortSearchAux f fuel i j ≤ j := by
  intro fuel
  induction fuel with
  | zero => intro i j hij; exact ⟨le_refl i, hij⟩
  | succ fuel ih =>
      intro i j hij
      simp only [sortSearchAux]
      by_cases hlt : i < j
      · simp only [hlt, if_true]
        by_cases hf : f ((i + j) / 2)
        · simp only [hf, if_true]
          have h := ih i ((i + j) / 2) (by omega)
          exact ⟨h.1, le_trans h.2 (by omega)⟩
        · simp only [hf, if_false]
          have h := ih ((i + j) / 2 + 1) j (by omega)
          exact ⟨le_trans (by omega) h.1, h.2⟩
      · simp only [hlt, if_false]
        exact ⟨le_refl i, hij⟩

theorem sortSearch_le (n : Nat) (f : Nat → Bool) : sortSearch n f ≤ n :=
  (sortSearchAux_le f n 0 n (Nat.zero_le n)).2

/-- `node.insertPoint` (src/storage/node.go:225-239).  The search index
is used to read `n.points[index].Timestamp` before any bounds check;
when it equals `len(n.points)` — empty leaf, or a timestamp strictly
greater than every stored point — the Go code indexes past the end of
the slice and panics, modelled as `none`. -/
def insertPointGo (points : List PointQ) (ts : Int)
    (value : List (String × ℚ)) : Option (List PointQ) :=
  let index := sortSearch points.length
    (fun i => decide ((points.getD i ⟨0, []⟩).ts ≥ ts))
  if h : index < points.length then
    let p := points.get ⟨index, h⟩
    if p.ts = ts then
      some (points.set index ⟨p.ts, value⟩)
    else
      some (points.take index ++ ⟨ts, value⟩ :: points.drop index)
  else
    none

mutual
/-- `node` from src/storage/node.go (the `db` and `parent`
back-references carry no data the claims depend on and are omitted). -/
inductive GoNode : Type where
  | mk (level : Nat) (isLeaf : Bool) (dirty : Int)
       (pointers : List GoPtr) (points : List PointQ) : GoNode

/-- `nodePointer` from src/storage/node.go: child key, serialized
position, cached per-metric rollup map, and the owned child node
(`none` models a nil `pointer`, as left by `decodeNodePointer`). -/
inductive GoPtr : Type where
  | mk (key : Int) (pos : Int) (value : ValMap) (child : Option GoNode) : GoPtr
end

def GoNode.level : GoNode → Nat
  | .mk l _ _ _ _ => l

def GoNode.isLeaf : GoNode → Bool
  | .mk _ b _ _ _ => b

def GoNode.dirty : GoNode → Int
  | .mk _ _ d _ _ => d

def GoNode.pointers : GoNode → List GoPtr
  | .mk _ _ _ ps _ => ps

def GoNode.points : GoNode → List PointQ
  | .mk _ _ _ _ ps => ps

def GoPtr.key : GoPtr → Int
  | .mk k _ _ _ => k

def GoPtr.pos : GoPtr → Int
  | .mk _ p _ _ => p

def GoPtr.value : GoPtr → ValMap
  | .mk _ _ v _ => v

def GoPtr.child : GoPtr → Option GoNode
  | .mk _ _ _ c => c

/-- `DB.newLeafNode` (src/storage/node.go:174-180): Go zero values for
the unset fields (level 0, dirty 0, nil pointers slice). -/
def newLeafNode : GoNode := .mk 0 true 0 [] []

/-- `DB.newInteriorNode` (src/storage/node.go:182-189): dirty is
initialized to -1 and the pointer list is empty. -/
def newInteriorNode : GoNode := .mk 0 false (-1) [] []

/-- One cached child `Value` of one pointer folded into the interior
accumulator, exactly as the interior branch of `node.reduce`
(src/storage/node.go:346-365) does it.  Note the source's min update
reads `if value[k].min < v.min { vk.min = v.min }` — it replaces the
accumulated min when the incoming min is LARGER. -/
def interiorStep (isLast : Bool) (acc : ValMap) (kv : String × ValueQ) : ValMap :=
  let k := kv.1; let v := kv.2
  match lookupV acc k with
  | none => setV acc k v
  | some vk =>
      let vk := { vk with sum := vk.sum + v.sum }
      let vk := if vk.max < v.max then { vk with max := v.max } else vk
      let vk := if vk.min < v.min then { vk with min := v.min } else vk
      let vk := if isLast then { vk with last := v.last } else vk
      let vk := { vk with count := vk.count + v.count }
      setV acc k vk

/-- Fold over all pointers' cached values, flagging the final pointer
(`index == len(n.pointers)-1`). -/
def interiorFoldAux : ValMap → List GoPtr → ValMap
  | acc, [] => acc
  | acc, [p] => p.value.foldl (interiorStep true) acc
  | acc, p :: q :: rest =>
      interiorFoldAux (p.value.foldl (interiorStep false) acc) (q :: rest)

def dummyPtr : GoPtr := .mk 0 0 [] none

/-- `node.reduce` (src/storage/node.go:314-368), with explicit fuel for
the dirty-child recursion.  `none` models a Go runtime panic: an
out-of-range `n.pointers[n.dirty]` read, a nil `pointer` dereference,
or (fuel 0) a non-terminating descent. -/
def reduceGo : Nat → GoNode → Option ValMap
  | 0, _ => none
  | fuel + 1, n =>
      if n.isLeaf then
        some (reduceLeafGo n.points)
      else
        if 0 ≤ n.dirty ∧ n.dirty < (n.pointers.length : Int) then
          let idx := n.dirty.toNat
          let p := n.pointers.getD idx dummyPtr
          match p.child with
          | none => none
          | some c =>
              match reduceGo fuel c with
              | none => none
              | some v =>
                  let ptrs := n.pointers.set idx (.mk p.key p.pos v p.child)
                  some (interiorFoldAux [] ptrs)
        else none

/-- `node.flush` (src/storage/node.go:192-208), with the external
`db.writeChunk` abstracted as `w` (`none` models a write error, in
which case flush returns the sentinel position 0).  A `none` RESULT
models the panic on an out-of-range `pointers[dirty]` access or a nil
child pointer. -/
def flushGo (w : GoNode → Option Int) : Nat → GoNode → Option Int
  | 0, _ => none
  | fuel + 1, n =>
      if n.isLeaf then
        some ((w n).getD 0)
      else
        if 0 ≤ n.dirty ∧ n.dirty < (n.pointers.length : Int) then
          let idx := n.dirty.toNat
          let p := n.pointers.getD idx dummyPtr
          match p.child with
          | none => none
          | some c =>
              match flushGo w fuel c with
              | none => none
              | some cpos =>
                  let n' : GoNode :=
                    .mk n.level n.isLeaf n.dirty
                      (n.pointers.set idx (.mk p.key cpos p.value p.child)) n.points
                  some ((w n').getD 0)
        else none

/-- The interface of the external `Time` collaborator that
`node.insertNode` consumes (spec §6): the raw nanosecond timestamp
`t.TS`, the bucket level `t.Level()`, and the truncated timestamp
`t.Timestamp(level).UnixNano()`. -/
structure GoTime where
  ts : Int
  lvl : Nat
  trunc : Nat → Int

/-- The `sort.Search` call of `node.insertNode`: least pointer index
with `pointers[i].key >= t.TS`. -/
def ptrSearch (pointers : List GoPtr) (ts : Int) : Nat :=
  sortSearch pointers.length
    (fun i => decide ((pointers.getD i dummyPtr).key ≥ ts))

/-- The link-a-new-child tail shared by both branches of
`node.insertNode` (src/storage/node.go:254-267 and 278-291): search for
the slot (`ptrSearch`), grow the slice by one empty slot unless an
existing pointer at the search index carries exactly key `t.TS`, then
overwrite the slot with a fresh `nodePointer{key: truncated-ts,
pointer: child}` (pos 0, nil value map).  The caller stores the same
search index in `n.dirty`. -/
def linkPtrs (pointers : List GoPtr) (ts : Int) (key : Int)
    (child : GoNode) : List GoPtr :=
  let index := ptrSearch pointers ts
  let ptrs :=
    if pointers.length = 0 ∨ index ≥ pointers.length ∨
        (pointers.getD index dummyPtr).key ≠ ts then
      pointers.take index ++ dummyPtr :: pointers.drop index
    else pointers
  ptrs.set index (.mk key 0 [] (some child))

/-- `node.insertNode` (src/storage/node.go:241-294), with fuel for the
create-missing-level recursion.  `none` models the `_assert` panic when
`t.Level()>>2 >= n.level` fails (propagated from the recursive call,
whose error return the Go code ignores but whose panic unwinds). -/
def insertNodeGo : Nat → GoNode → GoTime → List (String × ℚ) → Option GoNode
  | 0, _, _, _ => none
  | fuel + 1, n, t, value =>
      if t.lvl >>> 2 ≥ n.level then
        if t.lvl >>> 2 = n.level then
          some (.mk n.level n.isLeaf (ptrSearch n.pointers t.ts : Int)
            (linkPtrs n.pointers t.ts (t.trunc (n.level <<< 1))
              (.mk (n.level <<< 1) true 0 [] [⟨t.ts, value⟩])) n.points)
        else
          match insertNodeGo fuel (.mk (n.level <<< 1) false (-1) [] []) t value with
          | none => none
          | some interior' =>
              some (.mk n.level n.isLeaf (ptrSearch n.pointers t.ts : Int)
                (linkPtrs n.pointers t.ts (t.trunc (n.level <<< 1)) interior') n.points)
      else none

theorem insertNodeGo_assertFail {fuel : Nat} {n : GoNode} {t : GoTime}
    {v : List (String × ℚ)} (h : ¬ t.lvl >>> 2 ≥ n.level) :
    insertNodeGo (fuel + 1) n t v = none := by
  conv_lhs => rw [insertNodeGo]
  rw [if_neg h]

theorem insertNodeGo_eqLevel {fuel : Nat} {n : GoNode} {t : GoTime}
    {v : List (String × ℚ)} (h : t.lvl >>> 2 = n.level) :
    insertNodeGo (fuel + 1) n t v =
      some (.mk n.level n.isLeaf (ptrSearch n.pointers t.ts : Int)
        (linkPtrs n.pointers t.ts (t.trunc (n.level <<< 1))
          (.mk (n.level <<< 1) true 0 [] [⟨t.ts, v⟩])) n.points) := by
  conv_lhs => rw [insertNodeGo]
  rw [if_pos (le_of_eq h.symm), if_pos h]

theorem insertNodeGo_recurse {fuel : Nat} {n : GoNode} {t : GoTime}
    {v : List (String × ℚ)} (h1 : t.lvl >>> 2 ≥ n.level)
    (h2 : t.lvl >>> 2 ≠ n.level) :
    insertNodeGo (fuel + 1) n t v =
      match insertNodeGo fuel (.mk (n.level <<< 1) false (-1) [] []) t v with
      | none => none
      | some interior' =>
          some (.mk n.level n.isLeaf (ptrSearch n.pointers t.ts : Int)
            (linkPtrs n.pointers t.ts (t.trunc (n.level <<< 1)) interior') n.points) := by
  conv_lhs => rw [insertNodeGo]
  rw [if_pos h1, if_neg h2]

theorem getD_set_self {α : Type} (l : List α) (i : Nat) (x d : α)
    (h : i < l.length) : (l.set i x).getD i d = x := by
  induction l generalizing i with
  | nil => simp at h
  | cons a rest ih =>
      cases i with
      | zero => rfl
      | succ i =>
          simp only [List.set_cons_succ, List.getD_cons_succ]
          exact ih i (by simpa using h)

theorem linkPtrs_len (ps : List GoPtr) (ts key : Int) (c : GoNode) :
    ptrSearch ps ts < (linkPtrs ps ts key c).length := by
  have hle : ptrSearch ps ts ≤ ps.length := sortSearch_le _ _
  simp only [linkPtrs]
  by_cases hcond : ps.length = 0 ∨ ptrSearch ps ts ≥ ps.length ∨
      (ps.getD (ptrSearch ps ts) dummyPtr).key ≠ ts
  · rw [if_pos hcond]
    simp only [List.length_set, List.length_append, List.length_cons,
      List.length_take, List.length_drop]
    omega
  · rw [if_neg hcond]
    push_neg at hcond
    simp only [List.length_set]
    omega

theorem linkPtrs_getD (ps : List GoPtr) (ts key : Int) (c : GoNode) :
    (linkPtrs ps ts key c).getD (ptrSearch ps ts) dummyPtr =
      .mk key 0 [] (some c) := by
  have hle : ptrSearch ps ts ≤ ps.length := sortSearch_le _ _
  simp only [linkPtrs]
  by_cases hcond : ps.length = 0 ∨ ptrSearch ps ts ≥ ps.length ∨
      (ps.getD (ptrSearch ps ts) dummyPtr).key ≠ ts
  · rw [if_pos hcond]
    apply getD_set_self
    simp only [List.length_append, List.length_cons, List.length_take, List.length_drop]
    omega
  · rw [if_neg hcond]
    push_neg at hcond
    exact getD_set_self _ _ _ _ (by omega)

theorem insertNodeGo_some_shape {fuel : Nat} {n : GoNode} {t : GoTime}
    {v : List (String × ℚ)} {n' : GoNode}
    (h : insertNodeGo fuel n t v = some n') :
    n'.level = n.level ∧ n'.isLeaf = n.isLeaf ∧ n'.points = n.points := by
  cases fuel with
  | zero => simp [insertNodeGo] at h
  | succ fuel =>
      unfold insertNodeGo at h
      by_cases h1 : t.lvl >>> 2 ≥ n.level
      · simp only [h1, if_true] at h
        by_cases h2 : t.lvl >>> 2 = n.level
        · simp only [h2, if_true] at h
          cases h
          exact ⟨rfl, rfl, rfl⟩
        · simp only [h2, if_false] at h
          rcases hrec : insertNodeGo fuel (.mk (n.level <<< 1) false (-1) [] []) t v with _ | c
          · rw [hrec] at h; cases h
          · rw [hrec] at h
            simp only [Option.some.injEq] at h
            subst h
            exact ⟨rfl, rfl, rfl⟩
      · simp only [h1, if_false] at h
        cases h

/-- C3 (refuting totality): `node.insertPoint` reads
`n.points[index].Timestamp` before any bounds check, so the very first
insert into an empty leaf, and any insert with a timestamp strictly
greater than every stored point, panics with an out-of-range index
(`none` here); when the search index IS in range the claimed behavior
holds: an exact timestamp match overwrites that point's value map, and
otherwise the new point is inserted preserving sort order. -/
theorem insertPoint_boundary_panic :
    insertPointGo [] 1 [("x", 1)] = none ∧
    insertPointGo [⟨0, [("x", 1)]⟩] 5 [("y", 2)] = none ∧
    insertPointGo [⟨5, [("x", 1)]⟩] 5 [("y", 2)] = some [⟨5, [("y", 2)]⟩] ∧
    insertPointGo [⟨5, [("x", 1)]⟩] 3 [("y", 2)] =
      some [⟨3, [("y", 2)]⟩, ⟨5, [("x", 1)]⟩] :=
  ⟨rfl, rfl, rfl, rfl⟩

/-- The dirty child of `c2Node`: a leaf with one point of value 1 on
metric "x"; its reduce yields sum=max=min=first=last=1, count=1. -/
def c2Leaf : GoNode := .mk 4 true 0 [] [⟨0, [("x", 1)]⟩]

/-- An interior node whose pointer 0 (the dirty one) owns `c2Leaf` and
whose pointer 1 carries a cached rollup with min 2 on metric "x". -/
def c2Node : GoNode :=
  .mk 2 false 0
    [.mk 0 0 [] (some c2Leaf),
     .mk 1 0 [("x", ⟨2, 2, 2, 2, 2, 1⟩)] none] []

/-- C2 (divergence at the failing input): the interior branch of
`node.reduce` refreshes the dirty child's cached Value (pointer 0
becomes min 1) and folds all pointers, but its min update reads
`if value[k].min < v.min { vk.min = v.min }` — the comparison is
inverted, so with children's mins 1 and 2 the node's rollup min comes
out 2 (the MAXIMUM of the mins) instead of the claimed minimum 1.  Sum,
max and count do come out as the claim states (3, 2 and 2). -/
theorem interior_reduce_min_bug :
    reduceGo 2 c2Node =
      some [("x", { sum := 3, max := 2, min := 2, first := 1, last := 2, count := 2 })] := by
  norm_num [reduceGo, c2Node, c2Leaf, reduceLeafGo, leafFoldAux, leafPointFold,
    leafStepGo, interiorFoldAux, interiorStep, lookupV, setV, GoNode.isLeaf,
    GoNode.dirty, GoNode.pointers, GoNode.points, GoPtr.child, GoPtr.key,
    GoPtr.pos, GoPtr.value, dummyPtr, List.getD]

/-- C10: `node.flush` and the interior branch of `node.reduce` access
`n.pointers[n.dirty]` unconditionally, which panics unless
`0 <= dirty < len(pointers)`; a node fresh from `DB.newInteriorNode`
has dirty = -1 and no pointers, so interior flush and reduce are total
only once an insertion has installed a valid dirty index. -/
theorem interior_dirty_precondition :
    (newInteriorNode.dirty = -1 ∧ newInteriorNode.pointers = []) ∧
    (∀ (n : GoNode) (fuel : Nat) (w : GoNode → Option Int),
      n.isLeaf = false →
      ¬ (0 ≤ n.dirty ∧ n.dirty < (n.pointers.length : Int)) →
      reduceGo (fuel + 1) n = none ∧ flushGo w (fuel + 1) n = none) := by
  refine ⟨⟨rfl, rfl⟩, ?_⟩
  intro n fuel w hleaf hdirty
  constructor
  · unfold reduceGo
    simp only [hleaf, Bool.false_eq_true, if_false]
    rw [if_neg hdirty]
  · unfold flushGo
    simp only [hleaf, Bool.false_eq_true, if_false]
    rw [if_neg hdirty]

theorem interior_dirty_precondition_witness :
    reduceGo 1 newInteriorNode = none ∧
    flushGo (fun _ => none) 1 newInteriorNode = none :=
  interior_dirty_precondition.2 newInteriorNode 0 (fun _ => none) rfl (by decide)

/-- A sample whose bucket level (the `LevelMonth` bit, 4) is exactly
`n.level << 1` for the year-level (bit 2) interior node `c4Node`. -/
def c4Time : GoTime := ⟨0, 4, fun _ => 0⟩

def c4Node : GoNode := .mk 2 false (-1) [] []

/-- C4 (counterexample): the claim says that for a sample whose bucket
level equals `n.level << 1` insertNode creates the directly contained
leaf; in the code the guard is `t.Level()>>2 == n.level`, so for
`n.level = 2` (year) and `t.Level() = 4 = n.level << 1` (month) the
assertion `t.Level()>>2 >= n.level` (here `1 >= 2`) already fails and
insertNode panics instead of creating anything. -/
theorem insertNode_level_shift_cex :
    insertNodeGo 8 c4Node c4Time [] = none := rfl

/-- C4 (amended): `insertNode` panics unless `t.Level()>>2 >= n.level`;
it creates the directly contained leaf — a child at level
`n.level << 1` holding exactly the inserted point — when
`t.Level()>>2` EQUALS `n.level` (i.e. the sample's bucket level is
`n.level << 2`), and otherwise recurses one level deeper after creating
a new interior node at level `n.level << 1`; in both non-panic cases
`n.dirty` is set to the index of the pointer that changed. -/
theorem insertNode_level_dispatch (n : GoNode) (t : GoTime)
    (v : List (String × ℚ)) (fuel : Nat) :
    (t.lvl >>> 2 < n.level → insertNodeGo (fuel + 1) n t v = none) ∧
    (t.lvl >>> 2 = n.level →
      ∃ (n' : GoNode) (idx : Nat), insertNodeGo (fuel + 1) n t v = some n' ∧
        n'.level = n.level ∧ n'.points = n.points ∧
        n'.dirty = (idx : Int) ∧ idx < n'.pointers.length ∧
        n'.pointers.getD idx dummyPtr =
          .mk (t.trunc (n.level <<< 1)) 0 []
            (some (.mk (n.level <<< 1) true 0 [] [⟨t.ts, v⟩]))) ∧
    (n.level < t.lvl >>> 2 →
      insertNodeGo (fuel + 1) n t v = none ∨
      ∃ (n' : GoNode) (idx : Nat) (c : GoNode),
        insertNodeGo fuel (.mk (n.level <<< 1) false (-1) [] []) t v = some c ∧
        c.level = n.level <<< 1 ∧ c.isLeaf = false ∧
        insertNodeGo (fuel + 1) n t v = some n' ∧
        n'.level = n.level ∧ n'.points = n.points ∧
        n'.dirty = (idx : Int) ∧ idx < n'.pointers.length ∧
        n'.pointers.getD idx dummyPtr =
          .mk (t.trunc (n.level <<< 1)) 0 [] (some c)) := by
  refine ⟨?_, ?_, ?_⟩
  · intro hlt
    exact insertNodeGo_assertFail (by omega)
  · intro heq
    exact ⟨GoNode.mk n.level n.isLeaf (ptrSearch n.pointers t.ts : Int)
        (linkPtrs n.pointers t.ts (t.trunc (n.level <<< 1))
          (.mk (n.level <<< 1) true 0 [] [⟨t.ts, v⟩])) n.points,
      ptrSearch n.pointers t.ts, insertNodeGo_eqLevel heq, rfl, rfl, rfl,
      linkPtrs_len _ _ _ _, linkPtrs_getD _ _ _ _⟩
  · intro hgt
    rw [insertNodeGo_recurse (by omega) (by omega)]
    cases hrec : insertNodeGo fuel (GoNode.mk (n.level <<< 1) false (-1) [] []) t v with
    | none => exact Or.inl rfl
    | some c =>
        right
        rcases insertNodeGo_some_shape hrec with ⟨hcl, hcleaf, _⟩
        exact ⟨GoNode.mk n.level n.isLeaf (ptrSearch n.pointers t.ts : Int)
            (linkPtrs n.pointers t.ts (t.trunc (n.level <<< 1)) c) n.points,
          ptrSearch n.pointers t.ts, c, rfl, hcl, hcleaf, rfl, rfl, rfl, rfl,
          linkPtrs_len _ _ _ _, linkPtrs_getD _ _ _ _⟩

theorem insertNode_level_dispatch_witness :
    insertNodeGo 1 (GoNode.mk 2 false (-1) [] []) ⟨0, 4, fun _ => 0⟩ [] = none :=
  (insertNode_level_dispatch (GoNode.mk 2 false (-1) [] []) ⟨0, 4, fun _ => 0⟩ [] 0).1
    (by decide)

/-- The `magic` marker constant (src/store/db.go:13). -/
def magicConst : Nat := 0xED0CDAED

/-- The data file format `version` constant (src/store/db.go:16). -/
def versionConst : Nat := 1

/-- `meta` from src/store/db.go:396-406, fields as the Go unsigned
values they hold (magic/version/pageSize/flags: uint32; freelist, data,
pgid, txid, checksum: 64-bit). -/
structure Meta where
  magic : Nat
  version : Nat
  pageSize : Nat
  flags : Nat
  freelist : Nat
  data : Nat
  pgid : Nat
  txid : Nat
  checksum : Nat
  deriving Repr, DecidableEq

/-- The meta-validation errors (ErrInvalid, ErrVersionMismatch,
ErrChecksum of src/store). -/
inductive MetaErr where
  | invalid
  | versionMismatch
  | checksum
  deriving Repr, DecidableEq

/-- The `k` little-endian bytes of `n`. -/
def leBytes : Nat → Nat → List Nat
  | 0, _ => []
  | k + 1, n => n % 256 :: leBytes k (n / 256)

/-- The bytes of the meta struct preceding its `checksum` field — Go's
`(*[unsafe.Offsetof(meta{}.checksum)]byte)(unsafe.Pointer(m))[:]`,
48 bytes: four uint32 fields then four 64-bit fields, little-endian,
with no padding in this layout. -/
def metaBytes (m : Meta) : List Nat :=
  leBytes 4 m.magic ++ leBytes 4 m.version ++ leBytes 4 m.pageSize ++
    leBytes 4 m.flags ++ leBytes 8 m.freelist ++ leBytes 8 m.data ++
    leBytes 8 m.pgid ++ leBytes 8 m.txid

/-- 64-bit FNV-1a (`hash/fnv.New64a()` / `Write` / `Sum64`). -/
def fnv64a (bytes : List Nat) : Nat :=
  bytes.foldl (fun h b => ((h ^^^ b) * 1099511628211) % 2 ^ 64) 14695981039346656037

/-- `meta.sum64` (src/store/db.go:426-430): FNV-1a over every meta byte
preceding the checksum field. -/
def Meta.sum64 (m : Meta) : Nat := fnv64a (metaBytes m)

/-- `meta.validate` (src/store/db.go:409-418). -/
def Meta.validate (m : Meta) : Except MetaErr Unit :=
  if m.magic ≠ magicConst then .error .invalid
  else if m.version ≠ versionConst then .error .versionMismatch
  else if m.checksum ≠ 0 ∧ m.checksum ≠ m.sum64 then .error .checksum
  else .ok ()

/-- `DB.meta` (src/store/db.go:248-269): metaA is the meta with the
higher txid (meta0 on a tie); return it if it validates, else the other
if that validates, else panic (`none`). -/
def dbMeta (meta0 meta1 : Meta) : Option Meta :=
  let metaA := if meta1.txid > meta0.txid then meta1 else meta0
  let metaB := if meta1.txid > meta0.txid then meta0 else meta1
  match metaA.validate with
  | .ok _ => some metaA
  | .error _ =>
      match metaB.validate with
      | .ok _ => some metaB
      | .error _ => none

/-- The meta-revalidation tail of `DB.mmap` (src/store/db.go:187-199):
after remapping, both meta pages are validated and the call errors
(with meta0's validation error) exactly when both fail. -/
def mmapMetaCheck (meta0 meta1 : Meta) : Except MetaErr Unit :=
  match meta0.validate, meta1.validate with
  | .error e0, .error _ => .error e0
  | _, _ => .ok ()

/-- C8: `meta.validate` succeeds iff the magic matches the fixed
constant, the version matches the binary's version, and the checksum is
zero (unset, always passing) or equal to the FNV-1a hash of the meta's
bytes preceding the checksum field; the error distinguishes invalid
magic, version mismatch and checksum mismatch, checked in that order. -/
theorem meta_validate_characterization (m : Meta) :
    (m.validate = .ok () ↔
      m.magic = magicConst ∧ m.version = versionConst ∧
        (m.checksum = 0 ∨ m.checksum = m.sum64)) ∧
    (m.magic ≠ magicConst → m.validate = .error .invalid) ∧
    (m.magic = magicConst → m.version ≠ versionConst →
      m.validate = .error .versionMismatch) ∧
    (m.magic = magicConst → m.version = versionConst → m.checksum ≠ 0 →
      m.checksum ≠ m.sum64 → m.validate = .error .checksum) := by
  by_cases h1 : m.magic = magicConst <;> by_cases h2 : m.version = versionConst <;>
    by_cases h3 : m.checksum = 0 <;> by_cases h4 : m.checksum = m.sum64 <;>
      simp [Meta.validate, h1, h2, h3, h4]

/-- A meta page whose checksum is zero ("unset": validation must pass)
and one with a wrong magic marker. -/
def metaOk : Meta := ⟨magicConst, versionConst, 4096, 0, 2, 3, 4, 9, 0⟩

def metaBadMagic : Meta := ⟨0, versionConst, 4096, 0, 2, 3, 4, 7, 0⟩

theorem meta_validate_characterization_witness :
    metaOk.validate = Except.ok () ∧
    metaBadMagic.validate = Except.error MetaErr.invalid :=
  ⟨(meta_validate_characterization metaOk).1.mpr ⟨rfl, rfl, Or.inl rfl⟩,
   (meta_validate_characterization metaBadMagic).2.1 (by decide)⟩

/-- C6: `db.meta()` returns the meta with the strictly higher txid
whenever that one validates; when the higher one fails validation it
falls back to the other provided that validates; and when both fail,
`db.meta()` panics (`none`) and the validation tail of `DB.mmap`
returns an error, so open fails. -/
theorem db_meta_active_selection (m0 m1 : Meta) :
    (m1.txid > m0.txid → m1.validate = .ok () → dbMeta m0 m1 = some m1) ∧
    (m0.txid ≥ m1.txid → m0.validate = .ok () → dbMeta m0 m1 = some m0) ∧
    (m1.txid > m0.txid → m1.validate ≠ .ok () → m0.validate = .ok () →
      dbMeta m0 m1 = some m0) ∧
    (m0.txid ≥ m1.txid → m0.validate ≠ .ok () → m1.validate = .ok () →
      dbMeta m0 m1 = some m1) ∧
    (m0.validate ≠ .ok () → m1.validate ≠ .ok () →
      dbMeta m0 m1 = none ∧ ∃ e, mmapMetaCheck m0 m1 = .error e) := by
  by_cases htx : m1.txid > m0.txid <;>
    rcases h0 : m0.validate with e0 | ⟨⟩ <;>
    rcases h1 : m1.validate with e1 | ⟨⟩ <;>
      simp [dbMeta, mmapMetaCheck, htx, h0, h1]

theorem db_meta_active_selection_witness :
    dbMeta metaBadMagic metaOk = some metaOk :=
  (db_meta_active_selection metaBadMagic metaOk).1 (by decide)
    ((meta_validate_characterization metaOk).1.mpr ⟨rfl, rfl, Or.inl rfl⟩)

/-- The store-level errors (`ErrNotFound`, `ErrDatabaseNotOpen`). -/
inductive DBErr where
  | notFound
  | databaseNotOpen
  deriving Repr, DecidableEq

/-- Modelled from the spec: the durable observable contents of a
database — a mapping from nanosecond keys to raw value bytes — plus the
`opened` flag that `beginRWTx` consults.  The transaction and cursor
machinery (`Tx`, `Cursor`, page buffers) is not under src/; per spec
§1/§6 the engine exposes point insertion and key lookup over this
state, and §4.3's `commit()` persists a write transaction's pending
page writes. -/
structure DBState where
  opened : Bool
  stored : List (Int × List Nat)
  deriving Repr, DecidableEq

/-- Modelled from the spec: `Cursor.seek` (not under src/) is the key
lookup primitive of the read path; it is a read-only traversal that
yields the stored entry for the target key when one exists. -/
def seek (db : DBState) (key : Int) : Option (Int × List Nat) :=
  db.stored.find? (fun e => e.1 = key)

/-- `DB.Get` (src/store/db.go:276-284): seek, then compare the key the
cursor stopped at against the requested one; a mismatch is ErrNotFound. -/
def Get (db : DBState) (key : Int) : Except DBErr (List Nat) :=
  match seek db key with
  | some (k, v) => if key = k then .ok v else .error .notFound
  | none => .error .notFound

/-- `DB.Put` (src/store/db.go:286-297), faithful to the source: it
begins a read-write transaction (`beginRWTx`, src/store/db.go:299-329,
which fails with ErrDatabaseNotOpen on a closed database), seeks a
cursor to `key`, and commits.  The `value` parameter is never
referenced and nothing is ever inserted into the tree or written to a
page, so `Tx.Commit` (outside src/; spec §4.3) has no pending writes to
persist and the stored contents are unchanged. -/
def Put (db : DBState) (key : Int) (value : List (String × ℚ)) :
    Except DBErr DBState :=
  if db.opened then
    match seek db key with
    | _ => .ok db
  else .error .databaseNotOpen

/-- C1 (divergence at the failing input): on a freshly opened empty
database, `Put 7 {"x": 1}` succeeds while storing nothing — `DB.Put`
never references its `value` parameter and never reaches `node.put` —
so the subsequent `Get 7` returns ErrNotFound instead of the inserted
metric map. -/
theorem put_get_roundtrip_fails :
    Put ⟨true, []⟩ 7 [("x", 1)] = .ok ⟨true, []⟩ ∧
    Get ⟨true, []⟩ 7 = .error .notFound :=
  ⟨rfl, rfl⟩

/-- `maxMmapStep` (src/store/db.go:19): `1 << 30`, the 1 GiB growth
step. -/
def maxMmapStep : Int := 2 ^ 30

/-- The doubling loop of `DB.mmapSize` (src/store/db.go:207-211):
`for i := uint(15); i <= 30; i++ { if size <= 1<<i { return 1<<i } }`,
here returning the exponent; fuel 16 covers the sixteen iterations. -/
def mmapSizeLoop (size : Int) : Nat → Nat → Option Nat
  | 0, _ => none
  | fuel + 1, i =>
      if i ≤ 30 then
        if size ≤ 2 ^ i then some i
        else mmapSizeLoop size fuel (i + 1)
      else none

/-- The `sz += maxMmapStep - remainder` rounding of `DB.mmapSize`
(src/store/db.go:219-222). -/
def mmapStepRound (size : Int) : Int :=
  if size % maxMmapStep > 0 then size + (maxMmapStep - size % maxMmapStep)
  else size

/-- The `sz = ((sz / pageSize) + 1) * pageSize` rounding of
`DB.mmapSize` (src/store/db.go:226-229). -/
def mmapPageRound (pageSize sz : Int) : Int :=
  if sz % pageSize ≠ 0 then (sz / pageSize + 1) * pageSize else sz

/-- The final `if sz > maxMapSize { sz = maxMapSize }` cap
(src/store/db.go:231-234). -/
def mmapCap (maxMapSize sz : Int) : Int :=
  if sz > maxMapSize then maxMapSize else sz

/-- `DB.mmapSize` (src/store/db.go:205-237), parametrized by the two
platform constants it reads: `maxMapSize` (defined per platform outside
src/; the spec's "hard maximum map size") and `db.pageSize`.
`.error ()` is the "mmap too large" error.  All quantities stay
nonnegative under the preconditions proved below, where Go's truncated
`/` and `%` agree with Lean's Euclidean `Int` operations. -/
def mmapSize (maxMapSize pageSize size : Int) : Except Unit Int :=
  match mmapSizeLoop size 16 15 with
  | some i => .ok (2 ^ i)
  | none =>
      if size > maxMapSize then .error ()
      else .ok (mmapCap maxMapSize (mmapPageRound pageSize (mmapStepRound size)))

theorem mmapSizeLoop_found (size : Int) :
    ∀ (fuel i : Nat), i + fuel = 31 → 15 ≤ i → size ≤ 2 ^ 30 →
      (∀ j, 15 ≤ j → j < i → ¬ size ≤ 2 ^ j) →
      ∃ k, mmapSizeLoop size fuel i = some k ∧ i ≤ k ∧ k ≤ 30 ∧
        size ≤ 2 ^ k ∧ ∀ j, 15 ≤ j → size ≤ (2 ^ j : Int) → k ≤ j := by
  intro fuel
  induction fuel with
  | zero =>
      intro i hfi h15 h30 hmin
      exact absurd h30 (hmin 30 (by omega) (by omega))
  | succ fuel ih =>
      intro i hfi h15 h30 hmin
      have hi30 : i ≤ 30 := by omega
      simp only [mmapSizeLoop, hi30, if_true]
      by_cases hle : size ≤ (2 ^ i : Int)
      · rw [if_pos hle]
        refine ⟨i, rfl, le_refl i, hi30, hle, ?_⟩
        intro j hj15 hjle
        by_contra hlt
        exact hmin j hj15 (by omega) hjle
      · rw [if_neg hle]
        obtain ⟨k, hk, hik, hk30, hsk, hminimal⟩ :=
          ih (i + 1) (by omega) (by omega) h30
            (fun j hj15 hji =>
              if hij : j = i then by rw [hij]; exact hle
              else hmin j hj15 (by omega))
        exact ⟨k, hk, by omega, hk30, hsk, hminimal⟩

theorem mmapSizeLoop_none (size : Int) :
    ∀ (fuel i : Nat), (∀ j, i ≤ j → j ≤ 30 → ¬ size ≤ 2 ^ j) →
      mmapSizeLoop size fuel i = none := by
  intro fuel
  induction fuel with
  | zero => intro i _; rfl
  | succ fuel ih =>
      intro i hmin
      simp only [mmapSizeLoop]
      by_cases hi : i ≤ 30
      · rw [if_pos hi, if_neg (hmin i (le_refl i) hi)]
        exact ih (i + 1) (fun j hj hj30 => hmin j (by omega) hj30)
      · rw [if_neg hi]

theorem mmapStepRound_spec (size : Int) :
    maxMmapStep ∣ mmapStepRound size ∧ size ≤ mmapStepRound size ∧
    ∀ g', maxMmapStep ∣ g' → size ≤ g' → mmapStepRound size ≤ g' := by
  have hstep : maxMmapStep = (1073741824 : Int) := by norm_num [maxMmapStep]
  unfold mmapStepRound
  rw [hstep]
  by_cases hrem : size % (1073741824 : Int) > 0
  · rw [if_pos hrem]
    exact ⟨by omega, by omega, fun g' hdvd hge => by omega⟩
  · rw [if_neg hrem]
    exact ⟨by omega, le_refl size, fun g' _ hge => hge⟩

theorem mmapPageRound_spec (pageSize sz : Int) (hp : 0 < pageSize) :
    pageSize ∣ mmapPageRound pageSize sz ∧ sz ≤ mmapPageRound pageSize sz ∧
    ∀ r', pageSize ∣ r' → sz ≤ r' → mmapPageRound pageSize sz ≤ r' := by
  have hid := Int.ediv_add_emod sz pageSize
  have hlt := Int.emod_lt_of_pos sz hp
  have hnn := Int.emod_nonneg sz (ne_of_gt hp)
  have hexp : (sz / pageSize + 1) * pageSize = pageSize * (sz / pageSize) + pageSize := by
    ring
  unfold mmapPageRound
  by_cases hmod : sz % pageSize ≠ 0
  · rw [if_pos hmod]
    refine ⟨dvd_mul_left pageSize _, by linarith, ?_⟩
    intro r' hdvd hge
    rcases hdvd with ⟨m, hm⟩
    have hmodpos : 0 < sz % pageSize := lt_of_le_of_ne hnn (Ne.symm hmod)
    have h1 : pageSize * (sz / pageSize) < pageSize * m := by linarith
    have h2 : sz / pageSize < m := lt_of_mul_lt_mul_left h1 (le_of_lt hp)
    have h3 : (sz / pageSize + 1) * pageSize ≤ m * pageSize :=
      mul_le_mul_of_nonneg_right (by omega) (le_of_lt hp)
    calc (sz / pageSize + 1) * pageSize ≤ m * pageSize := h3
      _ = pageSize * m := mul_comm m pageSize
      _ = r' := hm.symm
  · rw [if_neg hmod]
    push_neg at hmod
    exact ⟨Int.dvd_of_emod_eq_zero hmod, le_refl sz, fun r' _ hge => hge⟩

theorem mmapCap_eq_min (maxMapSize sz : Int) :
    mmapCap maxMapSize sz = min sz maxMapSize := by
  unfold mmapCap
  rw [min_def]
  by_cases h : sz > maxMapSize
  · rw [if_pos h, if_neg (not_le.mpr h)]
  · rw [if_neg h, if_pos (not_lt.mp h)]

/-- C7: for requests of 1 byte up to 1 GiB, `DB.mmapSize` returns the
smallest power of two that is at least 32 KiB and covers the request;
for requests above 1 GiB and at most the hard maximum, it returns the
request rounded up to the next 1 GiB boundary, further rounded up to a
multiple of the page size, capped at the hard maximum (which the result
never exceeds); a request above the hard maximum is an error. -/
theorem mmap_size_growth (maxMapSize pageSize size : Int)
    (hpage : 0 < pageSize) (hmax : 2 ^ 30 ≤ maxMapSize) :
    (1 ≤ size → size ≤ 2 ^ 30 →
      ∃ k : Nat, mmapSize maxMapSize pageSize size = .ok (2 ^ k) ∧
        2 ^ 15 ≤ (2 ^ k : Int) ∧ size ≤ 2 ^ k ∧
        ∀ j : Nat, 2 ^ 15 ≤ (2 ^ j : Int) → size ≤ 2 ^ j →
          (2 ^ k : Int) ≤ 2 ^ j) ∧
    (2 ^ 30 < size → size ≤ maxMapSize →
      ∃ g r : Int,
        (maxMmapStep ∣ g ∧ size ≤ g ∧
          ∀ g', maxMmapStep ∣ g' → size ≤ g' → g ≤ g') ∧
        (pageSize ∣ r ∧ g ≤ r ∧
          ∀ r', pageSize ∣ r' → g ≤ r' → r ≤ r') ∧
        mmapSize maxMapSize pageSize size = .ok (min r maxMapSize) ∧
        min r maxMapSize ≤ maxMapSize) ∧
    (maxMapSize < size → mmapSize maxMapSize pageSize size = .error ()) := by
  refine ⟨?_, ?_, ?_⟩
  · intro h1 h30
    obtain ⟨k, hk, h15k, hk30, hsk, hminimal⟩ :=
      mmapSizeLoop_found size 16 15 (by omega) (le_refl 15) h30
        (fun j hj15 hjlt => by omega)
    refine ⟨k, ?_, ?_, hsk, ?_⟩
    · unfold mmapSize
      rw [hk]
    · exact pow_le_pow_right₀ (by norm_num) h15k
    · intro j hj15 hjs
      have hj : 15 ≤ j := by
        by_contra hj
        push_neg at hj
        have h2 : (2 : Int) ^ j < 2 ^ 15 := by
          apply pow_lt_pow_right₀ (by norm_num) (by omega)
        linarith
      exact pow_le_pow_right₀ (by norm_num) (hminimal j hj hjs)
  · intro hgt hle
    have hpos : (0 : Int) < size := by
      have : (0 : Int) < 2 ^ 30 := by norm_num
      linarith
    have hnone : mmapSizeLoop size 16 15 = none := by
      apply mmapSizeLoop_none
      intro j hj hj30 hle'
      have h2j : (2 : Int) ^ j ≤ 2 ^ 30 := pow_le_pow_right₀ (by norm_num) hj30
      linarith
    refine ⟨mmapStepRound size, mmapPageRound pageSize (mmapStepRound size),
      mmapStepRound_spec size,
      mmapPageRound_spec pageSize (mmapStepRound size) hpage, ?_, min_le_right _ _⟩
    unfold mmapSize
    rw [hnone, if_neg (not_lt.mpr hle), mmapCap_eq_min]
  · intro hlt
    have hnone : mmapSizeLoop size 16 15 = none := by
      apply mmapSizeLoop_none
      intro j hj hj30 hle'
      have h2j : (2 : Int) ^ j ≤ 2 ^ 30 := pow_le_pow_right₀ (by norm_num) hj30
      linarith
    unfold mmapSize
    rw [hnone, if_pos hlt]

theorem mmap_size_growth_witness :
    ∃ k : Nat, mmapSize (2 ^ 35) 4096 100000 = .ok (2 ^ k) ∧
      2 ^ 15 ≤ (2 ^ k : Int) ∧ (100000 : Int) ≤ 2 ^ k ∧
      ∀ j : Nat, 2 ^ 15 ≤ (2 ^ j : Int) → (100000 : Int) ≤ 2 ^ j →
        (2 ^ k : Int) ≤ 2 ^ j :=
  (mmap_size_growth (2 ^ 35) 4096 100000 (by norm_num) (by norm_num)).1
    (by norm_num) (by norm_num)

/-! ### The binary node codec (claim C9)

The codec layer works on byte lists.  Go `float64` fields traverse the
codec as opaque 8-byte IEEE images (`math.Float64bits` both ways), so
they are modelled by their 64-bit patterns; metric keys are byte
strings.  The primitive helpers `encodeUint16/encodeInt64/encodeFloat64`
and their decoders, and `Point.encode/decodePoint`, live outside src/
and are modelled from the spec (§4.4, §6): fixed-width little-endian
fields; a Point is its timestamp followed by its metric entries. -/

/-- Decode little-endian bytes (inverse of `leBytes`). -/
def leVal : List Nat → Nat
  | [] => 0
  | b :: rest => b + 256 * leVal rest

theorem leBytes_length : ∀ (k n : Nat), (leBytes k n).length = k := by
  intro k
  induction k with
  | zero => intro n; rfl
  | succ k ih => intro n; simp [leBytes, ih]

theorem leVal_leBytes : ∀ (k n : Nat), leVal (leBytes k n) = n % 256 ^ k := by
  intro k
  induction k with
  | zero => intro n; simp [leBytes, leVal, Nat.mod_one]
  | succ k ih =>
      intro n
      rw [leBytes, leVal, ih, pow_succ']
      exact (Nat.mod_mul).symm

theorem take_app {α : Type} {k : Nat} (a b : List α) (h : a.length = k) :
    (a ++ b).take k = a := by
  subst h; exact List.take_left a b

theorem drop_app {α : Type} {k : Nat} (a b : List α) (h : a.length = k) :
    (a ++ b).drop k = b := by
  subst h; exact List.drop_left a b

/-- Modelled from the spec (§4.4): `encodeInt64` — 8 little-endian
bytes of the two's-complement value. -/
def encodeInt64 (i : Int) : List Nat := leBytes 8 (i % (2 ^ 64 : Int)).toNat

/-- Modelled from the spec (§4.4): `decodeInt64`. -/
def decodeInt64 (bs : List Nat) : Int :=
  if leVal bs < 2 ^ 63 then (leVal bs : Int) else (leVal bs : Int) - 2 ^ 64

theorem decodeInt64_encodeInt64 (i : Int) (h1 : -(2 ^ 63) ≤ i)
    (h2 : i < 2 ^ 63) : decodeInt64 (encodeInt64 i) = i := by
  unfold decodeInt64 encodeInt64
  rw [leVal_leBytes]
  have h8 : (256 : Nat) ^ 8 = 2 ^ 64 := by norm_num
  rw [h8]
  have hlt : (i % (2 ^ 64 : Int)).toNat % 2 ^ 64 = (i % (2 ^ 64 : Int)).toNat := by
    apply Nat.mod_eq_of_lt
    omega
  rw [hlt]
  split <;> omega

theorem encodeInt64_length (i : Int) : (encodeInt64 i).length = 8 :=
  leBytes_length 8 _

/-- A metric value as its raw float64 bit pattern. -/
structure ValueB where
  sum : Nat
  max : Nat
  min : Nat
  first : Nat
  last : Nat
  count : Nat
  deriving Repr, DecidableEq

/-- `Value.encode` (src/storage/node.go:55-64): five 8-byte float
images in order sum, max, min, first, last, then the 16-bit count —
42 bytes. -/
def valueEncode (v : ValueB) : List Nat :=
  leBytes 8 v.sum ++ (leBytes 8 v.max ++ (leBytes 8 v.min ++
    (leBytes 8 v.first ++ (leBytes 8 v.last ++ leBytes 2 v.count))))

theorem valueEncode_length (v : ValueB) : (valueEncode v).length = 42 := by
  simp [valueEncode, leBytes_length]

/-- `decodeValue` (src/storage/node.go:66-75); the source's absolute
offsets 0/8/16/24/32/40 are written as iterated drops. -/
def decodeValue (bs : List Nat) : ValueB :=
  ⟨leVal (bs.take 8),
   leVal ((bs.drop 8).take 8),
   leVal (((bs.drop 8).drop 8).take 8),
   leVal ((((bs.drop 8).drop 8).drop 8).take 8),
   leVal (((((bs.drop 8).drop 8).drop 8).drop 8).take 8),
   leVal ((((((bs.drop 8).drop 8).drop 8).drop 8).drop 8).take 2)⟩

/-- All of a value's fields fit their wire widths. -/
def WFValueB (v : ValueB) : Prop :=
  v.sum < 2 ^ 64 ∧ v.max < 2 ^ 64 ∧ v.min < 2 ^ 64 ∧ v.first < 2 ^ 64 ∧
    v.last < 2 ^ 64 ∧ v.count < 2 ^ 16

theorem decodeValue_round (v : ValueB) (rest : List Nat) (h : WFValueB v) :
    decodeValue (valueEncode v ++ rest) = v := by
  obtain ⟨h1, h2, h3, h4, h5, h6⟩ := h
  have e8 : ∀ m : Nat, m < 2 ^ 64 → m % 256 ^ 8 = m := by
    intro m hm; apply Nat.mod_eq_of_lt; norm_num; omega
  have e2 : ∀ m : Nat, m < 2 ^ 16 → m % 256 ^ 2 = m := by
    intro m hm; apply Nat.mod_eq_of_lt; norm_num; omega
  simp only [valueEncode, decodeValue, List.append_assoc]
  rw [take_app _ _ (leBytes_length 8 v.sum),
    drop_app _ _ (leBytes_length 8 v.sum),
    take_app _ _ (leBytes_length 8 v.max),
    drop_app _ _ (leBytes_length 8 v.max),
    take_app _ _ (leBytes_length 8 v.min),
    drop_app _ _ (leBytes_length 8 v.min),
    take_app _ _ (leBytes_length 8 v.first),
    drop_app _ _ (leBytes_length 8 v.first),
    take_app _ _ (leBytes_length 8 v.last),
    drop_app _ _ (leBytes_length 8 v.last),
    take_app _ _ (leBytes_length 2 v.count)]
  simp only [leVal_leBytes]
  rw [e8 _ h1, e8 _ h2, e8 _ h3, e8 _ h4, e8 _ h5, e2 _ h6]

/-- `nodePointer` for the codec: key, position, and the metric map as
an association list of (key bytes, Value); the `pointer` field is not
serialized (decoded pointers come back nil). -/
structure PtrB where
  key : Int
  pos : Int
  value : List (List Nat × ValueB)
  deriving Repr, DecidableEq

/-- `Point` for the codec: timestamp and metric entries of (key bytes,
float64 bit pattern). -/
structure PointB where
  ts : Int
  value : List (List Nat × Nat)
  deriving Repr, DecidableEq

/-- The metric-entry tail of `nodePointer.encode`
(src/storage/node.go:81-86): per entry a 16-bit key length, the key
bytes, then the 42-byte Value. -/
def npEntriesEncode : List (List Nat × ValueB) → List Nat
  | [] => []
  | (k, v) :: rest => leBytes 2 k.length ++ (k ++ (valueEncode v ++ npEntriesEncode rest))

/-- The entry loop of `decodeNodePointer` (src/storage/node.go:96-105),
with fuel bounding the iteration count (each iteration consumes at
least two bytes, so any fuel at or above the byte count is enough);
`none` models the Go panic on a truncated buffer. -/
def decodeEntries : Nat → List Nat → Option (List (List Nat × ValueB))
  | _, [] => some []
  | 0, _ :: _ => none
  | _ + 1, [_] => none
  | fuel + 1, b0 :: b1 :: rest =>
      if b0 + 256 * b1 + 42 ≤ rest.length then
        match decodeEntries fuel ((rest.drop (b0 + 256 * b1)).drop 42) with
        | some es =>
            some ((rest.take (b0 + 256 * b1),
              decodeValue (rest.drop (b0 + 256 * b1))) :: es)
        | none => none
      else none

/-- `nodePointer.encode` (src/storage/node.go:77-88). -/
def ptrEncode (np : PtrB) : List Nat :=
  encodeInt64 np.key ++ (encodeInt64 np.pos ++ npEntriesEncode np.value)

/-- `decodeNodePointer` (src/storage/node.go:90-108). -/
def decodeNodePointer (bs : List Nat) : Option PtrB :=
  if 16 ≤ bs.length then
    match decodeEntries ((bs.drop 8).drop 8).length ((bs.drop 8).drop 8) with
    | some es =>
        some ⟨decodeInt64 (bs.take 8), decodeInt64 ((bs.drop 8).take 8), es⟩
    | none => none
  else none

/-- Modelled from the spec (§6, §4.4): `Point.encode` — the timestamp
as a 64-bit field, then per metric entry a 16-bit key length, the key
bytes, and the 8-byte float64 image. -/
def pEntriesEncode : List (List Nat × Nat) → List Nat
  | [] => []
  | (k, bits) :: rest => leBytes 2 k.length ++ (k ++ (leBytes 8 bits ++ pEntriesEncode rest))

def pointEncode (p : PointB) : List Nat :=
  encodeInt64 p.ts ++ pEntriesEncode p.value

/-- Modelled from the spec (§6): `decodePoint`, inverse of
`Point.encode`, with the same fuel convention as `decodeEntries`. -/
def decodePEntries : Nat → List Nat → Option (List (List Nat × Nat))
  | _, [] => some []
  | 0, _ :: _ => none
  | _ + 1, [_] => none
  | fuel + 1, b0 :: b1 :: rest =>
      if b0 + 256 * b1 + 8 ≤ rest.length then
        match decodePEntries fuel ((rest.drop (b0 + 256 * b1)).drop 8) with
        | some es =>
            some ((rest.take (b0 + 256 * b1),
              leVal ((rest.drop (b0 + 256 * b1)).take 8)) :: es)
        | none => none
      else none

def decodePoint (bs : List Nat) : Option PointB :=
  if 8 ≤ bs.length then
    match decodePEntries (bs.drop 8).length (bs.drop 8) with
    | some es => some ⟨decodeInt64 (bs.take 8), es⟩
    | none => none
  else none

def WFEntryV (e : List Nat × ValueB) : Prop :=
  e.1.length < 2 ^ 16 ∧ WFValueB e.2

def WFEntryP (e : List Nat × Nat) : Prop :=
  e.1.length < 2 ^ 16 ∧ e.2 < 2 ^ 64

def WFPtrB (np : PtrB) : Prop :=
  -(2 ^ 63) ≤ np.key ∧ np.key < 2 ^ 63 ∧ -(2 ^ 63) ≤ np.pos ∧
    np.pos < 2 ^ 63 ∧ ∀ e ∈ np.value, WFEntryV e

def WFPointB (p : PointB) : Prop :=
  -(2 ^ 63) ≤ p.ts ∧ p.ts < 2 ^ 63 ∧ ∀ e ∈ p.value, WFEntryP e

theorem decodeEntries_round :
    ∀ (l : List (List Nat × ValueB)) (fuel : Nat), l.length ≤ fuel →
      (∀ e ∈ l, WFEntryV e) →
      decodeEntries fuel (npEntriesEncode l) = some l := by
  intro l
  induction l with
  | nil => intro fuel _ _; cases fuel <;> rfl
  | cons e rest ih =>
      rcases e with ⟨k, v⟩
      intro fuel hfuel hwf
      rcases fuel with _ | fuel
      · simp at hfuel
      obtain ⟨hklen, hvwf⟩ := hwf (k, v) (List.mem_cons_self _ _)
      have hklen' : k.length < 65536 := by
        have h216 : (2 : Nat) ^ 16 = 65536 := by norm_num
        simpa [h216] using hklen
      have hb : k.length % 256 + 256 * (k.length / 256 % 256) = k.length := by
        omega
      have henc : npEntriesEncode ((k, v) :: rest) =
          (k.length % 256) :: (k.length / 256 % 256) ::
            (k ++ (valueEncode v ++ npEntriesEncode rest)) := rfl
      have htail : (k ++ (valueEncode v ++ npEntriesEncode rest)).length =
          k.length + (42 + (npEntriesEncode rest).length) := by
        simp [valueEncode_length]
      rw [henc]
      simp only [decodeEntries, hb]
      rw [if_pos (by omega)]
      rw [take_app _ _ rfl, drop_app _ _ rfl,
        drop_app _ _ (valueEncode_length v),
        decodeValue_round v _ hvwf,
        ih fuel (by simpa using hfuel) (fun e he => hwf e (List.mem_cons_of_mem _ he))]

theorem decodePEntries_round :
    ∀ (l : List (List Nat × Nat)) (fuel : Nat), l.length ≤ fuel →
      (∀ e ∈ l, WFEntryP e) →
      decodePEntries fuel (pEntriesEncode l) = some l := by
  intro l
  induction l with
  | nil => intro fuel _ _; cases fuel <;> rfl
  | cons e rest ih =>
      rcases e with ⟨k, bits⟩
      intro fuel hfuel hwf
      rcases fuel with _ | fuel
      · simp at hfuel
      obtain ⟨hklen, hbits⟩ := hwf (k, bits) (List.mem_cons_self _ _)
      have hklen' : k.length < 65536 := by
        have h216 : (2 : Nat) ^ 16 = 65536 := by norm_num
        simpa [h216] using hklen
      have hb : k.length % 256 + 256 * (k.length / 256 % 256) = k.length := by
        omega
      have henc : pEntriesEncode ((k, bits) :: rest) =
          (k.length % 256) :: (k.length / 256 % 256) ::
            (k ++ (leBytes 8 bits ++ pEntriesEncode rest)) := rfl
      have htail : (k ++ (leBytes 8 bits ++ pEntriesEncode rest)).length =
          k.length + (8 + (pEntriesEncode rest).length) := by
        simp [leBytes_length]
      rw [henc]
      simp only [decodePEntries, hb]
      rw [if_pos (by omega)]
      rw [take_app _ _ rfl, drop_app _ _ rfl,
        take_app _ _ (leBytes_length 8 bits),
        drop_app _ _ (leBytes_length 8 bits),
        leVal_leBytes,
        ih fuel (by simpa using hfuel) (fun e he => hwf e (List.mem_cons_of_mem _ he))]
      have hbits' : bits % 256 ^ 8 = bits :=
        Nat.mod_eq_of_lt (by norm_num; omega)
      rw [hbits']

theorem npEntriesEncode_length_ge (l : List (List Nat × ValueB)) :
    l.length ≤ (npEntriesEncode l).length := by
  induction l with
  | nil => simp [npEntriesEncode]
  | cons e rest ih =>
      rcases e with ⟨k, v⟩
      simp only [npEntriesEncode, List.length_append, List.length_cons,
        leBytes_length, valueEncode_length]
      omega

theorem pEntriesEncode_length_ge (l : List (List Nat × Nat)) :
    l.length ≤ (pEntriesEncode l).length := by
  induction l with
  | nil => simp [pEntriesEncode]
  | cons e rest ih =>
      rcases e with ⟨k, bits⟩
      simp only [pEntriesEncode, List.length_append, List.length_cons,
        leBytes_length]
      omega

theorem decodeNodePointer_round (np : PtrB) (h : WFPtrB np) :
    decodeNodePointer (ptrEncode np) = some np := by
  obtain ⟨hk1, hk2, hp1, hp2, hent⟩ := h
  unfold decodeNodePointer ptrEncode
  have hlen : (encodeInt64 np.key ++
      (encodeInt64 np.pos ++ npEntriesEncode np.value)).length =
      16 + (npEntriesEncode np.value).length := by
    simp only [List.length_append, encodeInt64_length]
    omega
  rw [if_pos (by omega)]
  rw [drop_app _ _ (encodeInt64_length np.key),
    drop_app _ _ (encodeInt64_length np.pos),
    decodeEntries_round np.value _ (npEntriesEncode_length_ge np.value) hent,
    take_app _ _ (encodeInt64_length np.key),
    take_app _ _ (encodeInt64_length np.pos),
    decodeInt64_encodeInt64 np.key hk1 hk2,
    decodeInt64_encodeInt64 np.pos hp1 hp2]

theorem decodePoint_round (p : PointB) (h : WFPointB p) :
    decodePoint (pointEncode p) = some p := by
  obtain ⟨h1, h2, hent⟩ := h
  unfold decodePoint pointEncode
  have hlen : (encodeInt64 p.ts ++ pEntriesEncode p.value).length =
      8 + (pEntriesEncode p.value).length := by
    simp [encodeInt64_length]
  rw [if_pos (by omega)]
  rw [drop_app _ _ (encodeInt64_length p.ts),
    decodePEntries_round p.value _ (pEntriesEncode_length_ge p.value) hent,
    take_app _ _ (encodeInt64_length p.ts),
    decodeInt64_encodeInt64 p.ts h1 h2]

/-- The repeated `(16-bit length, body)` item framing shared by
`node.encode`'s leaf and interior bodies (src/storage/node.go:114-125). -/
def encodeItems : List (List Nat) → List Nat
  | [] => []
  | b :: rest => leBytes 2 b.length ++ (b ++ encodeItems rest)

/-- The item-splitting loop shared by `decodeLeafNode` and
`decodeInteriorNode` (src/storage/node.go:142-152 and 160-171), fuel
convention as in `decodeEntries`. -/
def decodeItems : Nat → List Nat → Option (List (List Nat))
  | _, [] => some []
  | 0, _ :: _ => none
  | _ + 1, [_] => none
  | fuel + 1, b0 :: b1 :: rest =>
      if b0 + 256 * b1 ≤ rest.length then
        match decodeItems fuel (rest.drop (b0 + 256 * b1)) with
        | some bs => some (rest.take (b0 + 256 * b1) :: bs)
        | none => none
      else none

theorem encodeItems_length_ge (bss : List (List Nat)) :
    bss.length ≤ (encodeItems bss).length := by
  induction bss with
  | nil => simp [encodeItems]
  | cons b rest ih =>
      simp only [encodeItems, List.length_append, List.length_cons, leBytes_length]
      omega

theorem decodeItems_round :
    ∀ (bss : List (List Nat)) (fuel : Nat), bss.length ≤ fuel →
      (∀ b ∈ bss, b.length < 2 ^ 16) →
      decodeItems fuel (encodeItems bss) = some bss := by
  intro bss
  induction bss with
  | nil => intro fuel _ _; cases fuel <;> rfl
  | cons b rest ih =>
      intro fuel hfuel hwf
      rcases fuel with _ | fuel
      · simp at hfuel
      have hblen : b.length < 65536 := by
        have h216 : (2 : Nat) ^ 16 = 65536 := by norm_num
        have := hwf b (List.mem_cons_self _ _)
        omega
      have hb : b.length % 256 + 256 * (b.length / 256 % 256) = b.length := by
        omega
      have henc : encodeItems (b :: rest) =
          (b.length % 256) :: (b.length / 256 % 256) :: (b ++ encodeItems rest) := rfl
      have htail : (b ++ encodeItems rest).length =
          b.length + (encodeItems rest).length := by simp
      rw [henc]
      simp only [decodeItems, hb]
      rw [if_pos (by omega)]
      rw [take_app _ _ rfl, drop_app _ _ rfl,
        ih fuel (by simpa using hfuel) (fun x hx => hwf x (List.mem_cons_of_mem _ hx))]

theorem mapM_round {α : Type} (dec : List Nat → Option α) (enc : α → List Nat) :
    ∀ l : List α, (∀ x ∈ l, dec (enc x) = some x) →
      (l.map enc).mapM dec = some l := by
  intro l
  induction l with
  | nil => intro _; rfl
  | cons x rest ih =>
      intro h
      rw [List.map_cons, List.mapM_cons, h x (List.mem_cons_self _ _),
        ih (fun y hy => h y (List.mem_cons_of_mem _ hy))]
      rfl

/-- `node` as the codec sees it: level, kind, and the ordered
points/pointers (the claim's notion of node equivalence). -/
structure NodeB where
  level : Nat
  isLeaf : Bool
  points : List PointB
  pointers : List PtrB
  deriving Repr, DecidableEq

/-- The ten single-bit level constants `LevelRoot..LevelNSecond`
(src/storage/node.go:9-18). -/
def LevelConsts : List Nat := [1, 2, 4, 8, 16, 32, 64, 128, 256, 512]

/-- `node.encode` (src/storage/node.go:110-128): the 16-bit header
`level | LeafChunkFlag` (0x2000) or `level | InteriorChunkFlag`
(0x1000), then length-prefixed point or pointer bodies. -/
def nodeEncode (n : NodeB) : List Nat :=
  if n.isLeaf then
    leBytes 2 (n.level ||| 0x2000) ++ encodeItems (n.points.map pointEncode)
  else
    leBytes 2 (n.level ||| 0x1000) ++ encodeItems (n.pointers.map ptrEncode)

/-- `DB.decodeNode` + `decodeLeafNode` + `decodeInteriorNode`
(src/storage/node.go:130-172): leaf decoding is selected exactly when
`flags & LeafFlag (0x3000) == LeafChunkFlag (0x2000)`, interior
otherwise; the level is `flags & LevelFlag (0x0FFF)`. -/
def decodeNode (bs : List Nat) : Option NodeB :=
  match bs with
  | b0 :: b1 :: rest =>
      if (b0 + 256 * b1) &&& 0x3000 = 0x2000 then
        (decodeItems rest.length rest).bind fun chunks =>
          (chunks.mapM decodePoint).map fun pts =>
            ⟨(b0 + 256 * b1) &&& 0x0FFF, true, pts, []⟩
      else
        (decodeItems rest.length rest).bind fun chunks =>
          (chunks.mapM decodeNodePointer).map fun ps =>
            ⟨(b0 + 256 * b1) &&& 0x0FFF, false, [], ps⟩
  | _ => none

theorem level_bits (lvl : Nat) (h : lvl ∈ LevelConsts) :
    (lvl ||| 0x2000) < 65536 ∧ (lvl ||| 0x1000) < 65536 ∧
    (lvl ||| 0x2000) &&& 0x3000 = 0x2000 ∧ (lvl ||| 0x2000) &&& 0x0FFF = lvl ∧
    ¬ ((lvl ||| 0x1000) &&& 0x3000 = 0x2000) ∧
    (lvl ||| 0x1000) &&& 0x0FFF = lvl := by
  simp only [LevelConsts, List.mem_cons, List.not_mem_nil, or_false] at h
  rcases h with h | h | h | h | h | h | h | h | h | h <;> subst h <;> decide

/-- Well-formedness for the round trip: the level is one of the ten
level constants, the inactive side is empty (as in a node built by
`newLeafNode`/`newInteriorNode`), every field fits its wire width, and
every encoded item's length fits the 16-bit length prefix. -/
def WFNodeB (n : NodeB) : Prop :=
  n.level ∈ LevelConsts ∧
  (n.isLeaf = true → n.pointers = [] ∧
    ∀ p ∈ n.points, WFPointB p ∧ (pointEncode p).length < 2 ^ 16) ∧
  (n.isLeaf = false → n.points = [] ∧
    ∀ np ∈ n.pointers, WFPtrB np ∧ (ptrEncode np).length < 2 ^ 16)

/-- C9: for every well-formed in-memory node (leaf or interior, level
one of the ten single-bit constants), decoding its encoding reproduces
the node exactly: same level, same kind — the decoder selecting leaf
decoding exactly when `header & 0x3000 == 0x2000` — and the same
ordered points (timestamps and metric entries) or pointers (keys,
positions and per-metric aggregate Values). -/
theorem node_encode_decode_roundtrip (n : NodeB) (h : WFNodeB n) :
    decodeNode (nodeEncode n) = some n := by
  obtain ⟨hlvl, hleafwf, hintwf⟩ := h
  obtain ⟨hsz2, hsz1, hfl2, hlv2, hfl1, hlv1⟩ := level_bits n.level hlvl
  rcases n with ⟨lvl, lf, pts, ptrs⟩
  simp only at hsz2 hsz1 hfl2 hlv2 hfl1 hlv1 hleafwf hintwf
  cases lf
  · obtain ⟨hpts, hwf⟩ := hintwf rfl
    subst hpts
    have hdr : lvl ||| 0x1000 < 65536 := hsz1
    have hb : (lvl ||| 0x1000) % 256 + 256 * ((lvl ||| 0x1000) / 256 % 256) =
        lvl ||| 0x1000 := by omega
    have henc : nodeEncode ⟨lvl, false, [], ptrs⟩ =
        ((lvl ||| 0x1000) % 256) :: ((lvl ||| 0x1000) / 256 % 256) ::
          encodeItems (ptrs.map ptrEncode) := rfl
    rw [henc]
    simp only [decodeNode, hb]
    rw [if_neg hfl1]
    have hchunks : decodeItems (encodeItems (ptrs.map ptrEncode)).length
        (encodeItems (ptrs.map ptrEncode)) = some (ptrs.map ptrEncode) := by
      apply decodeItems_round _ _
        (le_trans (by simp) (encodeItems_length_ge (ptrs.map ptrEncode)))
      intro b hb'
      rcases List.mem_map.mp hb' with ⟨np, hnp, rfl⟩
      exact (hwf np hnp).2
    rw [hchunks]
    simp only [Option.some_bind]
    rw [mapM_round decodeNodePointer ptrEncode ptrs
        (fun np hnp => decodeNodePointer_round np (hwf np hnp).1)]
    simp only [Option.map_some']
    rw [hlv1]
  · obtain ⟨hptrs, hwf⟩ := hleafwf rfl
    subst hptrs
    have hdr : lvl ||| 0x2000 < 65536 := hsz2
    have hb : (lvl ||| 0x2000) % 256 + 256 * ((lvl ||| 0x2000) / 256 % 256) =
        lvl ||| 0x2000 := by omega
    have henc : nodeEncode ⟨lvl, true, pts, []⟩ =
        ((lvl ||| 0x2000) % 256) :: ((lvl ||| 0x2000) / 256 % 256) ::
          encodeItems (pts.map pointEncode) := rfl
    rw [henc]
    simp only [decodeNode, hb]
    rw [if_pos hfl2]
    have hchunks : decodeItems (encodeItems (pts.map pointEncode)).length
        (encodeItems (pts.map pointEncode)) = some (pts.map pointEncode) := by
      apply decodeItems_round _ _
        (le_trans (by simp) (encodeItems_length_ge (pts.map pointEncode)))
      intro b hb'
      rcases List.mem_map.mp hb' with ⟨p, hp, rfl⟩
      exact (hwf p hp).2
    rw [hchunks]
    simp only [Option.some_bind]
    rw [mapM_round decodePoint pointEncode pts
        (fun p hp => decodePoint_round p (hwf p hp).1)]
    simp only [Option.map_some']
    rw [hlv2]

/-- An interior node with one pointer carrying one metric entry, and a
leaf with one point: concrete instances of the round trip. -/
def nodeBInterior : NodeB :=
  ⟨2, false, [], [⟨100, 7, [([120], ⟨1, 2, 3, 4, 5, 6⟩)]⟩]⟩

def nodeBLeaf : NodeB := ⟨4, true, [⟨-5, [([121], 99)]⟩], []⟩

theorem node_encode_decode_roundtrip_witness :
    decodeNode (nodeEncode nodeBInterior) = some nodeBInterior ∧
    decodeNode (nodeEncode nodeBLeaf) = some nodeBLeaf :=
  ⟨node_encode_decode_roundtrip nodeBInterior
      (by refine ⟨by decide, ?_, ?_⟩
          · intro h
            exact absurd h (by decide)
          · intro _
            refine ⟨rfl, ?_⟩
            intro np hnp
            simp only [nodeBInterior, List.mem_singleton] at hnp
            subst hnp
            refine ⟨⟨by decide, by decide, by decide, by decide, ?_⟩, by decide⟩
            intro e he
            simp only [List.mem_singleton] at he
            subst he
            exact ⟨by decide, by decide, by decide, by decide, by decide,
              by decide, by decide⟩),
   node_encode_decode_roundtrip nodeBLeaf
      (by refine ⟨by decide, ?_, ?_⟩
          · intro _
            refine ⟨rfl, ?_⟩
            intro p hp
            simp only [nodeBLeaf, List.mem_singleton] at hp
            subst hp
            refine ⟨⟨by decide, by decide, ?_⟩, by decide⟩
            intro e he
            simp only [List.mem_singleton] at he
            subst he
            exact ⟨by decide, by decide⟩
          · intro h
            exact absurd h (by decide))⟩

end Tickdb
